import Mathlib

/-!
Verification of the martini middleware-dispatch core (blastbao/martini).

The development shallowly embeds the three core pieces of the repository:

* the per-request dispatch state machine: `context.run`, `context.Next` and
  `context.handler` (martini.go), modelled by `Martini.runF` / `Martini.execF`
  over an explicit request-context state `Martini.Ctx`;
* the default return-value interpreter `defaultReturnHandler`, `isByteSlice`
  and `canDeref` (return_handler.go), modelled over an abstract `reflect.Value`
  type `Martini.RVal`;
* the per-request context construction `Martini.createContext` (martini.go),
  over a type-keyed service container modelled from the specification (the
  `inject` package itself is an external dependency of the repository).

A handler body is modelled as the list of the core-visible effects it
performs, in order: writing to the response sink, calling `c.Next()`,
performing some observable work, or failing (an `Invoke` resolution /
invocation error).  The interpreter is fuel-indexed: `c.Next()` re-enters the
driving loop, so the recursion between the loop and a handler body is not
structural; fuel makes it total, and a fuel-monotonicity lemma shows results
other than fuel exhaustion are stable under more fuel.  A ghost `trace`
records, per handler invocation, the cursor at which it was invoked
(`Event.invoke`), its completion (`Event.ret`), response writes
(`Event.wrote`) and observable work (`Event.didWork`); the trace has no
influence on control flow.
-/

namespace Martini

/-- Abstract model of a Go `reflect.Value` as far as return_handler.go
inspects one: an integer, a string, a byte slice (`[]uint8`), a pointer, an
interface value, or the zero `reflect.Value` (kind `Invalid` — the value of
`var responseVal reflect.Value` when no branch assigns it). -/
inductive RVal where
  | rint (n : Int) : RVal
  | rstr (s : String) : RVal
  | rbytes (bs : List Nat) : RVal
  | rptr (v : RVal) : RVal
  | riface (v : RVal) : RVal
  | rinvalid : RVal
  deriving DecidableEq, Repr

/-- One core-visible atomic effect of a handler body: write to the response
sink, call `c.Next()`, perform observable work `tag`, or fail with error
code `e` (modelling an `Invoke` resolution/invocation error, which
`context.run` turns into a panic). -/
inductive HAction where
  | write : HAction
  | callNext : HAction
  | work (tag : Nat) : HAction
  | fail (e : Nat) : HAction
  deriving DecidableEq, Repr

/-- A martini `Handler`: its body is the ordered list of core-visible effects
it performs when invoked; `rets` are the reflect-level return values of the
underlying Go function (see `RVal` below).  `context.run` binds those return
values to `_`, so the dispatch model never reads `rets`. -/
structure Handler where
  body : List HAction
  rets : List RVal
  deriving DecidableEq, Repr

/-- Ghost trace events: `invoke i` records that the handler identified by
cursor value `i` was invoked (with `i` the value of `c.index` at that
moment), `ret i` that this invocation returned to the driving loop, `wrote`
a write to the response sink, and `didWork tag` observable handler work. -/
inductive Event where
  | invoke (i : Nat) : Event
  | ret (i : Nat) : Event
  | wrote : Event
  | didWork (tag : Nat) : Event
  deriving DecidableEq, Repr

/-- The request context `context` of martini.go: the handler chain, the
terminal action, the cursor `index`, the response sink's monotone written
flag (the only part of the decorated `ResponseWriter` the core reads), and
the ghost trace. -/
structure Ctx where
  handlers : List Handler
  action : Handler
  index : Nat
  written : Bool
  trace : List Event
  deriving DecidableEq, Repr

/-- Faults a run can end in: `panik e` models `panic(err)` in `context.run`
(carrying the `Invoke` error `e`), `invalidIndex` models
`panic ("invalid index for context handler")` in `context.handler`, and
`fuelOut` is the embedding artifact of running out of fuel. -/
inductive Fault where
  | panik (e : Nat) : Fault
  | invalidIndex : Fault
  | fuelOut : Fault
  deriving DecidableEq, Repr

/-- Model of `context.handler()`: the handler at the cursor, the action at
cursor `len(handlers)`, and `none` (the panic branch) beyond. -/
def contextHandler (c : Ctx) : Option Handler :=
  if c.index < c.handlers.length then c.handlers[c.index]?
  else if c.index = c.handlers.length then some c.action
  else none

/-- A run result: either the final context, or a fault together with the
trace at the moment the fault was raised (a Go panic unwinds without
undoing the side effects performed so far). -/
abbrev RunRes := Except (Fault × List Event) Ctx

/-- Ghost bookkeeping: record that the handler at the current cursor is
being invoked. -/
def pushInvoke (c : Ctx) : Ctx :=
  { c with trace := c.trace ++ [Event.invoke c.index] }

/-- The loop bookkeeping after an invocation returns: `c.index += 1` of
`context.run`, plus the ghost completion event for the invocation that
started at cursor `i`. -/
def bump (c1 : Ctx) (i : Nat) : Ctx :=
  { c1 with index := c1.index + 1, trace := c1.trace ++ [Event.ret i] }

mutual

/-- Model of `context.run()` (martini.go lines 217-229): while
`index <= len(handlers)`, invoke `handler()` — panicking with the error on
invocation failure — then increment the cursor, and return as soon as the
response sink reports written.  The first argument is fuel. -/
def runF : Nat → Ctx → RunRes
  | 0, c => .error (.fuelOut, c.trace)
  | fuel + 1, c =>
    if c.index ≤ c.handlers.length then
      match contextHandler c with
      | none => .error (.invalidIndex, c.trace)
      | some h =>
        match execF fuel h.body (pushInvoke c) with
        | .error e => .error e
        | .ok c1 =>
          if (bump c1 c.index).written then .ok (bump c1 c.index)
          else runF fuel (bump c1 c.index)
    else .ok c

/-- Execution of a handler body, one effect at a time.  `HAction.callNext`
is `context.Next()` (martini.go lines 207-210): increment the cursor and
synchronously re-enter `run` before continuing with the rest of the body.
`HAction.write` sets the sink's monotone written flag; `HAction.fail`
raises the invocation error. -/
def execF : Nat → List HAction → Ctx → RunRes
  | _, [], c => .ok c
  | 0, _ :: _, c => .error (.fuelOut, c.trace)
  | fuel + 1, HAction.write :: rest, c =>
      execF fuel rest { c with written := true, trace := c.trace ++ [Event.wrote] }
  | fuel + 1, HAction.work tag :: rest, c =>
      execF fuel rest { c with trace := c.trace ++ [Event.didWork tag] }
  | _ + 1, HAction.fail e :: _, c => .error (.panik e, c.trace)
  | fuel + 1, HAction.callNext :: rest, c =>
      match runF fuel { c with index := c.index + 1 } with
      | .error e => .error e
      | .ok c1 => execF fuel rest c1

end

/-- A fresh request context over a chain and an action, cursor at 0, nothing
written (`createContext` wires the same fields together with the injector;
see `createContext` below). -/
def mkCtx (hs : List Handler) (a : Handler) : Ctx :=
  { handlers := hs, action := a, index := 0, written := false, trace := [] }

/-- Projection of a trace to the cursor values of its invocation events. -/
def invokes (t : List Event) : List Nat :=
  t.filterMap fun e =>
    match e with
    | .invoke i => some i
    | _ => none

/-- True of an effect that neither writes to the response sink nor fails. -/
def pureAct : HAction → Bool
  | .write => false
  | .fail _ => false
  | _ => true

/-- A body with no response write and no failure. -/
def pureActs (l : List HAction) : Bool := l.all pureAct

/-- Whether a body calls `c.Next()` at least once. -/
def hasNext (l : List HAction) : Bool :=
  l.any fun a =>
    match a with
    | .callNext => true
    | _ => false

/-- A chain (middleware and action) with no response write and no failure. -/
def pureCtx (c : Ctx) : Bool :=
  (c.handlers.all fun h => pureActs h.body) && pureActs c.action.body

/-- A result that is not fuel exhaustion (fuel is an embedding artifact; all
other results are genuine behaviours of the code). -/
def goodRes : RunRes → Bool
  | .error (.fuelOut, _) => false
  | _ => true

/-- Soundness postcondition of a completed driving loop started at `c`: the
chain is untouched, the cursor never decreased, and the trace grew by a
suffix whose invocation cursors are strictly increasing, at least the
starting cursor, within `[0, len(handlers)]`, and below the final cursor. -/
def RunPost (c c' : Ctx) : Prop :=
  c'.handlers = c.handlers ∧ c'.action = c.action ∧ c.index ≤ c'.index ∧
    ∃ Δ, c'.trace = c.trace ++ Δ ∧
      (invokes Δ).Pairwise (· < ·) ∧
      ∀ j ∈ invokes Δ, c.index ≤ j ∧ j ≤ c.handlers.length ∧ j < c'.index

/-- Soundness postcondition of a completed handler body started at `c`: as
`RunPost`, except any invocation it causes (through `c.Next()`) is at a
cursor strictly above the handler's own. -/
def ExecPost (c c' : Ctx) : Prop :=
  c'.handlers = c.handlers ∧ c'.action = c.action ∧ c.index ≤ c'.index ∧
    ∃ Δ, c'.trace = c.trace ++ Δ ∧
      (invokes Δ).Pairwise (· < ·) ∧
      ∀ j ∈ invokes Δ, c.index + 1 ≤ j ∧ j ≤ c.handlers.length ∧ j < c'.index

/-- Soundness of a loop result: postcondition on success, and the fault is
never the `invalid index` panic of `context.handler`. -/
def RunResPost (c : Ctx) : RunRes → Prop
  | .ok c' => RunPost c c'
  | .error (f, _) => f ≠ Fault.invalidIndex

/-- Soundness of a body result. -/
def ExecResPost (c : Ctx) : RunRes → Prop
  | .ok c' => ExecPost c c'
  | .error (f, _) => f ≠ Fault.invalidIndex

/-- Exact postcondition of the driving loop over a pure chain (no response
write, no failure anywhere): it terminates normally, nothing is written,
the final cursor is beyond the chain, and the new trace suffix invokes
exactly the cursors `c.index, c.index+1, …, len(handlers)` — in that
order, each exactly once — and contains the completion event of each. -/
def PureRunPost (c c' : Ctx) : Prop :=
  c'.handlers = c.handlers ∧ c'.action = c.action ∧ c'.written = false ∧
    c.index ≤ c'.index ∧ c.handlers.length < c'.index ∧
    ∃ Δ, c'.trace = c.trace ++ Δ ∧
      invokes Δ = List.range' c.index (c.handlers.length + 1 - c.index) ∧
      ∀ j, c.index ≤ j → j ≤ c.handlers.length → Event.ret j ∈ Δ

/-- Exact postcondition of a pure body run at cursor `c.index`: if the body
calls `c.Next()` at least once, the handlers at `c.index+1, …,
len(handlers)` are each invoked exactly once, in order, and each completes
within the body's execution; otherwise no invocation happens and the
cursor is untouched. -/
def PureExecPost (acts : List HAction) (c c' : Ctx) : Prop :=
  c'.handlers = c.handlers ∧ c'.action = c.action ∧ c'.written = false ∧
    c.index ≤ c'.index ∧
    (hasNext acts = true → c.handlers.length < c'.index) ∧
    (hasNext acts = false → c'.index = c.index) ∧
    ∃ Δ, c'.trace = c.trace ++ Δ ∧
      invokes Δ =
        (if hasNext acts then List.range' (c.index + 1) (c.handlers.length - c.index)
         else []) ∧
      ∀ j, c.index < j → j ≤ c.handlers.length → hasNext acts = true → Event.ret j ∈ Δ

/-- The `reflect.Kind` of a modelled value. -/
inductive RKind where
  | kInt | kString | kSlice | kPtr | kInterface | kInvalid
  deriving DecidableEq, Repr

/-- Model of `reflect.Value.Kind()`. -/
def RVal.kind : RVal → RKind
  | .rint _ => .kInt
  | .rstr _ => .kString
  | .rbytes _ => .kSlice
  | .rptr _ => .kPtr
  | .riface _ => .kInterface
  | .rinvalid => .kInvalid

/-- Model of `reflect.Value.Int()` (only called under a `Kind() == Int`
guard in the source). -/
def RVal.intVal : RVal → Int
  | .rint n => n
  | _ => 0

/-- Model of `reflect.Value.Elem()` — dereference a pointer or unwrap an
interface (only called under the `canDeref` guard in the source). -/
def RVal.elemOf : RVal → RVal
  | .rptr v => v
  | .riface v => v
  | v => v

/-- Model of `reflect.Value.Bytes()` (only called under the `isByteSlice`
guard in the source). -/
def RVal.bytesOf : RVal → List Nat
  | .rbytes bs => bs
  | _ => []

/-- Model of `reflect.Value.String()`: the underlying string for kind
`String`; for any other kind Go returns the placeholder `"<T Value>"` with
`T` the type — in particular `"<invalid Value>"` for the zero
`reflect.Value`. -/
def RVal.stringOf : RVal → String
  | .rstr s => s
  | .rint _ => "<int Value>"
  | .rbytes _ => "<[]uint8 Value>"
  | .rptr _ => "<ptr Value>"
  | .riface _ => "<interface Value>"
  | .rinvalid => "<invalid Value>"

/-- Model of `canDeref` (return_handler.go lines 46-48):
`val.Kind() == reflect.Interface || val.Kind() == reflect.Ptr`. -/
def canDeref (val : RVal) : Bool :=
  val.kind == RKind.kInterface || val.kind == RKind.kPtr

/-- Model of `isByteSlice` (return_handler.go lines 42-44):
`val.Kind() == reflect.Slice && val.Type().Elem().Kind() == reflect.Uint8`;
`RVal.rbytes` is the model's only slice shape and its element kind is
`Uint8`. -/
def isByteSlice (val : RVal) : Bool :=
  val.kind == RKind.kSlice

/-- What gets written as a body chunk: raw bytes (`res.Write(v.Bytes())`) or
the bytes of a string (`res.Write([]byte(v.String()))`). -/
inductive BodyChunk where
  | raw (bs : List Nat) : BodyChunk
  | utf8 (s : String) : BodyChunk
  deriving DecidableEq, Repr

/-- An operation performed on the `http.ResponseWriter`: a status-code write
(`WriteHeader`) or a body write (`Write`). -/
inductive WOp where
  | writeHeader (code : Int) : WOp
  | write (b : BodyChunk) : WOp
  deriving DecidableEq, Repr

/-- Model of `defaultReturnHandler` (return_handler.go lines 15-40), applied
to the returned values `vals`; the result is the ordered list of operations
it performs on the response writer resolved from the context.

Source shape: `var responseVal reflect.Value` starts as the zero value;
if `len(vals) > 1 && vals[0].Kind() == reflect.Int` the first value is
written as the status code and `responseVal = vals[1]`; else if
`len(vals) > 0` then `responseVal = vals[0]`; `responseVal` is dereferenced
once if `canDeref`; finally either `res.Write(responseVal.Bytes())` when
`isByteSlice` or `res.Write([]byte(responseVal.String()))`. -/
def defaultReturnHandler (vals : List RVal) : List WOp :=
  let statusBranch : Bool :=
    decide (vals.length > 1) && ((vals.getD 0 RVal.rinvalid).kind == RKind.kInt)
  let headerOps : List WOp :=
    if statusBranch then [WOp.writeHeader (vals.getD 0 RVal.rinvalid).intVal] else []
  let responseVal : RVal :=
    if statusBranch then vals.getD 1 RVal.rinvalid
    else if vals.length > 0 then vals.getD 0 RVal.rinvalid
    else RVal.rinvalid
  let responseVal := if canDeref responseVal then responseVal.elemOf else responseVal
  let bodyOp : WOp :=
    if isByteSlice responseVal then WOp.write (BodyChunk.raw responseVal.bytesOf)
    else WOp.write (BodyChunk.utf8 responseVal.stringOf)
  headerOps ++ [bodyOp]

/-- The single body write `defaultReturnHandler` performs for a response
value `v` (dereference once, then raw bytes for a byte slice, textual
rendering otherwise). -/
def renderBody (v : RVal) : WOp :=
  let rv := if canDeref v then v.elemOf else v
  if isByteSlice rv then WOp.write (BodyChunk.raw rv.bytesOf)
  else WOp.write (BodyChunk.utf8 rv.stringOf)

/-- The type identities `createContext` and `New` traffic in: the abstract
`martini.Context` interface, the abstract `http.ResponseWriter` interface,
the concrete `*http.Request` type, the concrete `*context` type, the
concrete decorated response-writer type, and the concrete `*log.Logger`
type. -/
inductive TypeKey where
  | contextIface | responseWriterIface | requestType | contextConcrete | rwConcrete | loggerType
  deriving DecidableEq, Repr

/-- The service values those calls store: the request context itself, the
decorated response sink, the inbound request, and the logger. -/
inductive SVal where
  | ctxSelf | rwSink | reqVal | loggerVal
  deriving DecidableEq, Repr

/-- Modelled from the spec: the `inject.Injector` service container (an
external dependency of the repository; only its callers are under src/).
Per spec section 4.1 it is a type-keyed store of values with an optional
parent container to which lookups delegate on miss. -/
inductive Injector where
  | node (entries : List (TypeKey × SVal)) (parent : Option Injector) : Injector

/-- The container's own (non-inherited) entries. -/
def Injector.entries : Injector → List (TypeKey × SVal)
  | .node es _ => es

/-- The container's parent link. -/
def Injector.parentOf : Injector → Option Injector
  | .node _ p => p

/-- Modelled from the spec: the concrete Go type of each stored service
value — `Map(value)` keys by this. -/
def concreteTypeOf : SVal → TypeKey
  | .ctxSelf => .contextConcrete
  | .rwSink => .rwConcrete
  | .reqVal => .requestType
  | .loggerVal => .loggerType

/-- Modelled from the spec: `Map(value)` stores `value` keyed by its
concrete type, shadowing any prior mapping in this container. -/
def Injector.mapConcrete (inj : Injector) (v : SVal) : Injector :=
  .node ((concreteTypeOf v, v) :: inj.entries) inj.parentOf

/-- Modelled from the spec: `MapTo(value, asType)` stores `value` keyed by
the explicitly given abstract/interface type identity. -/
def Injector.mapTo (inj : Injector) (t : TypeKey) (v : SVal) : Injector :=
  .node ((t, v) :: inj.entries) inj.parentOf

/-- Modelled from the spec: `SetParent(container)` establishes the
read-through delegation link. -/
def Injector.setParent (inj : Injector) (p : Injector) : Injector :=
  .node inj.entries (some p)

/-- Modelled from the spec: `Get(type)` returns the value mapped in this
container, else delegates to the parent, else fails (`none`, the
unresolved-dependency case). -/
def Injector.get : Injector → TypeKey → Option SVal
  | .node es p, t =>
    match es.lookup t with
    | some v => some v
    | none =>
      match p with
      | some pinj => pinj.get t
      | none => none

/-- The application shell `Martini` (martini.go lines 30-35): the global
injector, the middleware list and the terminal action. -/
structure MartiniApp where
  injector : Injector
  handlers : List Handler
  action : Handler

/-- Model of `Martini.createContext` (martini.go lines 116-124): build
`&context{inject.New(), m.handlers, m.action, NewResponseWriter(res), 0}`,
then `c.SetParent(m)`, `c.MapTo(c, (*Context)(nil))`,
`c.MapTo(c.rw, (*http.ResponseWriter)(nil))`, `c.Map(req)`.  The result is
the per-request child injector together with the dispatch state the new
`context` starts from. -/
def createContext (m : MartiniApp) : Injector × Ctx :=
  let inj := Injector.node [] none
  let inj := inj.setParent m.injector
  let inj := inj.mapTo TypeKey.contextIface SVal.ctxSelf
  let inj := inj.mapTo TypeKey.responseWriterIface SVal.rwSink
  let inj := inj.mapConcrete SVal.reqVal
  (inj, { handlers := m.handlers, action := m.action, index := 0, written := false,
          trace := [] })

section Sanity

example :
    runF 10 (mkCtx [⟨[.work 1], []⟩] ⟨[.work 2], []⟩) =
      .ok { handlers := [⟨[.work 1], []⟩], action := ⟨[.work 2], []⟩, index := 2,
            written := false,
            trace := [.invoke 0, .didWork 1, .ret 0, .invoke 1, .didWork 2, .ret 1] } := by
  rfl

example :
    runF 10 (mkCtx [⟨[.callNext, .work 1], []⟩] ⟨[.work 2], []⟩) =
      .ok { handlers := [⟨[.callNext, .work 1], []⟩], action := ⟨[.work 2], []⟩, index := 3,
            written := false,
            trace := [.invoke 0, .invoke 1, .didWork 2, .ret 1, .didWork 1, .ret 0] } := by
  rfl

example :
    runF 10 (mkCtx [⟨[.write], []⟩, ⟨[.work 1], []⟩] ⟨[.work 2], []⟩) =
      .ok { handlers := [⟨[.write], []⟩, ⟨[.work 1], []⟩], action := ⟨[.work 2], []⟩,
            index := 1, written := true, trace := [.invoke 0, .wrote, .ret 0] } := by
  rfl

example :
    runF 10 (mkCtx [⟨[.fail 7], []⟩] ⟨[.work 2], []⟩) =
      .error (.panik 7, [.invoke 0]) := by
  rfl

end Sanity

/-- Once the cursor is beyond the chain, `run` returns immediately: its loop
condition `c.index <= len(c.handlers)` fails. -/
theorem runF_high (fuel : Nat) (c : Ctx) (h : c.handlers.length < c.index) :
    runF (fuel + 1) c = .ok c := by
  rw [runF]
  rw [if_neg (by omega)]

/-- `context.handler()` cannot hit its panic branch while the loop
condition holds: a cursor within `[0, len(handlers)]` always identifies a
handler (the action at `len(handlers)`). -/
theorem contextHandler_isSome (c : Ctx) (h : c.index ≤ c.handlers.length) :
    ∃ hd, contextHandler c = some hd := by
  unfold contextHandler
  rcases Nat.lt_or_ge c.index c.handlers.length with hlt | hge
  · rw [if_pos hlt]
    exact ⟨_, List.getElem?_eq_getElem hlt⟩
  · have heq : c.index = c.handlers.length := Nat.le_antisymm h hge
    rw [if_neg (by omega), if_pos heq]
    exact ⟨c.action, rfl⟩

/-- The handler identified by the cursor is one of the chain's middleware
or the action. -/
theorem contextHandler_mem (c : Ctx) (hd : Handler) (h : contextHandler c = some hd) :
    hd ∈ c.handlers ∨ hd = c.action := by
  unfold contextHandler at h
  split at h
  · refine Or.inl ?_
    rcases List.getElem?_eq_some.mp h with ⟨hb, hg⟩
    exact hg ▸ List.getElem_mem hb
  · split at h
    · exact Or.inr (Option.some.inj h).symm
    · exact absurd h (by simp)

/-- One loop iteration, invocation-failure case: the error propagates
(`panic(err)` — the loop catches nothing). -/
theorem runF_step_err (fuel : Nat) (c : Ctx) (h : Handler) (e : Fault × List Event)
    (hidx : c.index ≤ c.handlers.length) (hch : contextHandler c = some h)
    (hex : execF fuel h.body (pushInvoke c) = .error e) :
    runF (fuel + 1) c = .error e := by
  rw [runF, if_pos hidx, hch]
  simp only [hex]

/-- One loop iteration, stop case: the invocation returned, the cursor was
incremented, and the response sink reports written, so `run` returns. -/
theorem runF_step_stop (fuel : Nat) (c : Ctx) (h : Handler) (c1 : Ctx)
    (hidx : c.index ≤ c.handlers.length) (hch : contextHandler c = some h)
    (hex : execF fuel h.body (pushInvoke c) = .ok c1)
    (hw : (bump c1 c.index).written = true) :
    runF (fuel + 1) c = .ok (bump c1 c.index) := by
  rw [runF, if_pos hidx, hch]
  simp only [hex, hw, if_true]

/-- One loop iteration, continue case: nothing written yet, so the loop
repeats from the incremented cursor. -/
theorem runF_step_go (fuel : Nat) (c : Ctx) (h : Handler) (c1 : Ctx)
    (hidx : c.index ≤ c.handlers.length) (hch : contextHandler c = some h)
    (hex : execF fuel h.body (pushInvoke c) = .ok c1)
    (hw : (bump c1 c.index).written = false) :
    runF (fuel + 1) c = runF fuel (bump c1 c.index) := by
  rw [runF, if_pos hidx, hch]
  simp only [hex, hw]
  rw [if_neg (by simp)]

/-- An empty body finishes immediately, at any fuel. -/
theorem execF_nil (fuel : Nat) (c : Ctx) : execF fuel [] c = .ok c := by
  cases fuel <;> rfl

/-- Executing a response write: set the monotone written flag. -/
theorem execF_write (fuel : Nat) (rest : List HAction) (c : Ctx) :
    execF (fuel + 1) (HAction.write :: rest) c =
      execF fuel rest { c with written := true, trace := c.trace ++ [Event.wrote] } := by
  rw [execF]

/-- Executing observable work: ghost event only. -/
theorem execF_work (fuel : Nat) (tag : Nat) (rest : List HAction) (c : Ctx) :
    execF (fuel + 1) (HAction.work tag :: rest) c =
      execF fuel rest { c with trace := c.trace ++ [Event.didWork tag] } := by
  rw [execF]

/-- A failing invocation raises the error there, executing nothing further
of the body. -/
theorem execF_fail (fuel : Nat) (e : Nat) (rest : List HAction) (c : Ctx) :
    execF (fuel + 1) (HAction.fail e :: rest) c = .error (.panik e, c.trace) := by
  rw [execF]

/-- `c.Next()`, nested-run-failure case: the panic unwinds through
`Next()`; the rest of the caller's body never executes. -/
theorem execF_next_err (fuel : Nat) (rest : List HAction) (c : Ctx) (e : Fault × List Event)
    (hrun : runF fuel { c with index := c.index + 1 } = .error e) :
    execF (fuel + 1) (HAction.callNext :: rest) c = .error e := by
  rw [execF]
  simp only [hrun]

/-- `c.Next()`, normal case: increment the cursor, re-enter the driving
loop synchronously, then continue the caller's body from the state the
nested run left behind. -/
theorem execF_next_ok (fuel : Nat) (rest : List HAction) (c : Ctx) (c1 : Ctx)
    (hrun : runF fuel { c with index := c.index + 1 } = .ok c1) :
    execF (fuel + 1) (HAction.callNext :: rest) c = execF fuel rest c1 := by
  rw [execF]
  simp only [hrun]

/-- Results other than fuel exhaustion are stable under additional fuel:
fuel is purely an embedding artifact. -/
theorem fuel_mono :
    ∀ fuel : Nat,
      (∀ (c : Ctx) (fuel' : Nat) (r : RunRes), fuel ≤ fuel' → runF fuel c = r →
        goodRes r = true → runF fuel' c = r) ∧
      (∀ (acts : List HAction) (c : Ctx) (fuel' : Nat) (r : RunRes), fuel ≤ fuel' →
        execF fuel acts c = r → goodRes r = true → execF fuel' acts c = r) := by
  intro fuel
  induction fuel with
  | zero =>
    refine ⟨?_, ?_⟩
    · intro c fuel' r _ hr hg
      rw [runF] at hr
      subst hr
      simp [goodRes] at hg
    · intro acts c fuel' r _ hr hg
      cases acts with
      | nil =>
        rw [execF_nil] at hr
        subst hr
        exact execF_nil fuel' c
      | cons a rest =>
        rw [execF] at hr
        subst hr
        simp [goodRes] at hg
  | succ fuel ih =>
    obtain ⟨ihr, ihe⟩ := ih
    refine ⟨?_, ?_⟩
    · intro c fuel' r hle hr hg
      cases fuel' with
      | zero => omega
      | succ fuel'' =>
        have hle'' : fuel ≤ fuel'' := by omega
        by_cases hidx : c.index ≤ c.handlers.length
        · obtain ⟨h, hch⟩ := contextHandler_isSome c hidx
          cases hex : execF fuel h.body (pushInvoke c) with
          | error e =>
            rw [runF_step_err fuel c h e hidx hch hex] at hr
            rw [runF_step_err fuel'' c h e hidx hch
              (ihe _ _ _ _ hle'' hex (hr ▸ hg))]
            exact hr
          | ok c1 =>
            have hex' : execF fuel'' h.body (pushInvoke c) = .ok c1 :=
              ihe _ _ _ _ hle'' hex rfl
            cases hw : (bump c1 c.index).written with
            | true =>
              rw [runF_step_stop fuel c h c1 hidx hch hex hw] at hr
              rw [runF_step_stop fuel'' c h c1 hidx hch hex' hw]
              exact hr
            | false =>
              rw [runF_step_go fuel c h c1 hidx hch hex hw] at hr
              rw [runF_step_go fuel'' c h c1 hidx hch hex' hw]
              exact ihr _ _ _ hle'' hr hg
        · have hhi : c.handlers.length < c.index := by omega
          rw [runF_high fuel c hhi] at hr
          rw [runF_high fuel'' c hhi]
          exact hr
    · intro acts c fuel' r hle hr hg
      cases fuel' with
      | zero => omega
      | succ fuel'' =>
        have hle'' : fuel ≤ fuel'' := by omega
        cases acts with
        | nil =>
          rw [execF_nil] at hr
          subst hr
          exact execF_nil _ c
        | cons a rest =>
          cases a with
          | write =>
            rw [execF_write] at hr
            rw [execF_write]
            exact ihe _ _ _ _ hle'' hr hg
          | work tag =>
            rw [execF_work] at hr
            rw [execF_work]
            exact ihe _ _ _ _ hle'' hr hg
          | fail e =>
            rw [execF_fail] at hr
            rw [execF_fail]
            exact hr
          | callNext =>
            cases hrun : runF fuel { c with index := c.index + 1 } with
            | error e =>
              rw [execF_next_err fuel rest c e hrun] at hr
              rw [execF_next_err fuel'' rest c e (ihr _ _ _ hle'' hrun (hr ▸ hg))]
              exact hr
            | ok c1 =>
              rw [execF_next_ok fuel rest c c1 hrun] at hr
              rw [execF_next_ok fuel'' rest c c1 (ihr _ _ _ hle'' hrun rfl)]
              exact ihe _ _ _ _ hle'' hr hg

@[simp]
theorem invokes_append (a b : List Event) : invokes (a ++ b) = invokes a ++ invokes b :=
  List.filterMap_append a b _

@[simp]
theorem invokes_nil : invokes [] = [] := rfl

@[simp]
theorem invokes_invoke (i : Nat) (t : List Event) :
    invokes (Event.invoke i :: t) = i :: invokes t := rfl

@[simp]
theorem invokes_ret (i : Nat) (t : List Event) :
    invokes (Event.ret i :: t) = invokes t := rfl

@[simp]
theorem invokes_wrote (t : List Event) : invokes (Event.wrote :: t) = invokes t := rfl

@[simp]
theorem invokes_didWork (tag : Nat) (t : List Event) :
    invokes (Event.didWork tag :: t) = invokes t := rfl

@[simp]
theorem pushInvoke_handlers (c : Ctx) : (pushInvoke c).handlers = c.handlers := rfl

@[simp]
theorem pushInvoke_action (c : Ctx) : (pushInvoke c).action = c.action := rfl

@[simp]
theorem pushInvoke_index (c : Ctx) : (pushInvoke c).index = c.index := rfl

@[simp]
theorem pushInvoke_written (c : Ctx) : (pushInvoke c).written = c.written := rfl

@[simp]
theorem pushInvoke_trace (c : Ctx) :
    (pushInvoke c).trace = c.trace ++ [Event.invoke c.index] := rfl

@[simp]
theorem bump_handlers (c1 : Ctx) (i : Nat) : (bump c1 i).handlers = c1.handlers := rfl

@[simp]
theorem bump_action (c1 : Ctx) (i : Nat) : (bump c1 i).action = c1.action := rfl

@[simp]
theorem bump_index (c1 : Ctx) (i : Nat) : (bump c1 i).index = c1.index + 1 := rfl

@[simp]
theorem bump_written (c1 : Ctx) (i : Nat) : (bump c1 i).written = c1.written := rfl

@[simp]
theorem bump_trace (c1 : Ctx) (i : Nat) :
    (bump c1 i).trace = c1.trace ++ [Event.ret i] := rfl

/-- A body that finished composes into the loop-iteration postcondition
when the loop stops right after it (written observed). -/
theorem runPost_stop (c c1 : Ctx) (hidx : c.index ≤ c.handlers.length)
    (hb : ExecPost (pushInvoke c) c1) : RunPost c (bump c1 c.index) := by
  unfold ExecPost at hb
  unfold RunPost
  obtain ⟨hh, ha, hi, Δb, ht, hpw, hbd⟩ := hb
  simp only [pushInvoke_handlers, pushInvoke_action, pushInvoke_index, pushInvoke_trace] at *
  simp only [bump_handlers, bump_action, bump_index, bump_trace]
  refine ⟨hh, ha, by omega, Event.invoke c.index :: (Δb ++ [Event.ret c.index]), ?_, ?_, ?_⟩
  · rw [ht]
    simp
  · simp only [invokes_invoke, invokes_append, invokes_ret, invokes_nil, List.append_nil]
    rw [List.pairwise_cons]
    refine ⟨fun j hj => ?_, hpw⟩
    have := hbd j hj
    omega
  · intro j hj
    simp only [invokes_invoke, invokes_append, invokes_ret, invokes_nil,
      List.append_nil, List.mem_cons] at hj
    rcases hj with rfl | hj
    · exact ⟨le_refl _, hidx, by omega⟩
    · have := hbd j hj
      omega

/-- A body that finished, followed by a loop that went on from the bumped
cursor, composes into the loop postcondition. -/
theorem runPost_go (c c1 c' : Ctx) (hidx : c.index ≤ c.handlers.length)
    (hb : ExecPost (pushInvoke c) c1) (hl : RunPost (bump c1 c.index) c') : RunPost c c' := by
  unfold ExecPost at hb
  unfold RunPost at hl ⊢
  obtain ⟨hh, ha, hi, Δb, ht, hpw, hbd⟩ := hb
  obtain ⟨hh', ha', hi', Δl, ht', hpw', hbd'⟩ := hl
  simp only [pushInvoke_handlers, pushInvoke_action, pushInvoke_index, pushInvoke_trace,
    bump_handlers, bump_action, bump_index, bump_trace] at *
  have hlenb : c1.handlers.length = c.handlers.length := by rw [hh]
  refine ⟨hh'.trans hh, ha'.trans ha, by omega,
    Event.invoke c.index :: (Δb ++ (Event.ret c.index :: Δl)), ?_, ?_, ?_⟩
  · rw [ht', ht]
    simp
  · simp only [invokes_invoke, invokes_append, invokes_ret]
    rw [List.pairwise_cons]
    refine ⟨?_, ?_⟩
    · intro j hj
      rcases List.mem_append.mp hj with hj | hj
      · have := hbd j hj; omega
      · have := hbd' j hj; omega
    · rw [List.pairwise_append]
      refine ⟨hpw, hpw', ?_⟩
      intro a haa b hbb
      have h1 := hbd a haa
      have h2 := hbd' b hbb
      omega
  · intro j hj
    simp only [invokes_invoke, invokes_append, invokes_ret, List.mem_cons] at hj
    rcases hj with rfl | hj
    · exact ⟨le_refl _, hidx, by omega⟩
    · rcases List.mem_append.mp hj with hj | hj
      · have := hbd j hj
        omega
      · have := hbd' j hj
        rw [hlenb] at this
        omega

/-- A trace event that is not an invocation leaves the invocation
projection unchanged. -/
theorem invokes_cons_none (ev : Event) (Δ : List Event) (hev : invokes [ev] = []) :
    invokes (ev :: Δ) = invokes Δ := by
  have h := invokes_append [ev] Δ
  rw [hev] at h
  simpa using h

/-- The loop postcondition holds reflexively (nothing ran). -/
theorem runPost_refl (c : Ctx) : RunPost c c := by
  unfold RunPost
  exact ⟨rfl, rfl, le_refl _, [], by simp, by simp, by simp⟩

/-- The body postcondition holds reflexively (empty body). -/
theorem execPost_refl (c : Ctx) : ExecPost c c := by
  unfold ExecPost
  exact ⟨rfl, rfl, le_refl _, [], by simp, by simp, by simp⟩

/-- Prepending a non-invocation effect (a response write or observable
work) preserves the body postcondition. -/
theorem execPost_pre (ev : Event) (c c0 c' : Ctx)
    (hh : c0.handlers = c.handlers) (ha : c0.action = c.action) (hi : c0.index = c.index)
    (ht : c0.trace = c.trace ++ [ev]) (hev : invokes [ev] = [])
    (hp : ExecPost c0 c') : ExecPost c c' := by
  unfold ExecPost at hp ⊢
  obtain ⟨hh', ha', hi', Δ, ht', hpw, hbd⟩ := hp
  refine ⟨hh'.trans hh, ha'.trans ha, by omega, ev :: Δ, ?_, ?_, ?_⟩
  · rw [ht', ht]
    simp
  · rw [invokes_cons_none ev Δ hev]
    exact hpw
  · rw [invokes_cons_none ev Δ hev]
    intro j hj
    have := hbd j hj
    rw [hh, hi] at this
    exact this

/-- `c.Next()` followed by the rest of the body composes into the body
postcondition: the nested loop runs from the incremented cursor, and the
rest continues from whatever state it left. -/
theorem execPost_next (c c1 c' : Ctx)
    (hn : RunPost { c with index := c.index + 1 } c1) (hr : ExecPost c1 c') :
    ExecPost c c' := by
  unfold RunPost at hn
  unfold ExecPost at hr ⊢
  obtain ⟨hh, ha, hi, Δn, ht, hpw, hbd⟩ := hn
  obtain ⟨hh', ha', hi', Δr, ht', hpw', hbd'⟩ := hr
  simp only at hh ha hi ht hbd
  have hlen : c1.handlers.length = c.handlers.length := by rw [hh]
  refine ⟨hh'.trans hh, ha'.trans ha, by omega, Δn ++ Δr, ?_, ?_, ?_⟩
  · rw [ht', ht]
    simp
  · rw [invokes_append, List.pairwise_append]
    refine ⟨hpw, hpw', ?_⟩
    intro a haa b hbb
    have h1 := hbd a haa
    have h2 := hbd' b hbb
    omega
  · rw [invokes_append]
    intro j hj
    rcases List.mem_append.mp hj with hj | hj
    · have := hbd j hj
      omega
    · have := hbd' j hj
      rw [hlen] at this
      omega

/-- Soundness of the dispatch loop and of body execution, at every fuel:
on success the cursor-invariant postconditions hold, and the `invalid
index` panic of `context.handler` is unreachable. -/
theorem dispatch_sound :
    ∀ fuel : Nat,
      (∀ c : Ctx, RunResPost c (runF fuel c)) ∧
      (∀ (acts : List HAction) (c : Ctx), ExecResPost c (execF fuel acts c)) := by
  intro fuel
  induction fuel with
  | zero =>
    refine ⟨?_, ?_⟩
    · intro c
      rw [runF]
      show Fault.fuelOut ≠ Fault.invalidIndex
      simp
    · intro acts c
      cases acts with
      | nil =>
        rw [execF_nil]
        exact execPost_refl c
      | cons a rest =>
        rw [execF]
        show Fault.fuelOut ≠ Fault.invalidIndex
        simp
  | succ fuel ih =>
    obtain ⟨ihr, ihe⟩ := ih
    refine ⟨?_, ?_⟩
    · intro c
      by_cases hidx : c.index ≤ c.handlers.length
      · obtain ⟨h, hch⟩ := contextHandler_isSome c hidx
        have hbody := ihe h.body (pushInvoke c)
        cases hex : execF fuel h.body (pushInvoke c) with
        | error e =>
          rw [runF_step_err fuel c h e hidx hch hex]
          rw [hex] at hbody
          rcases e with ⟨f, tr⟩
          exact hbody
        | ok c1 =>
          rw [hex] at hbody
          have hbody' : ExecPost (pushInvoke c) c1 := hbody
          cases hw : (bump c1 c.index).written with
          | true =>
            rw [runF_step_stop fuel c h c1 hidx hch hex hw]
            show RunPost c (bump c1 c.index)
            exact runPost_stop c c1 hidx hbody'
          | false =>
            rw [runF_step_go fuel c h c1 hidx hch hex hw]
            have hloop := ihr (bump c1 c.index)
            cases hrl : runF fuel (bump c1 c.index) with
            | error e =>
              rw [hrl] at hloop
              rcases e with ⟨f, tr⟩
              exact hloop
            | ok c' =>
              rw [hrl] at hloop
              show RunPost c c'
              exact runPost_go c c1 c' hidx hbody' hloop
      · have hhi : c.handlers.length < c.index := by omega
        rw [runF_high fuel c hhi]
        exact runPost_refl c
    · intro acts c
      cases acts with
      | nil =>
        rw [execF_nil]
        exact execPost_refl c
      | cons a rest =>
        cases a with
        | write =>
          rw [execF_write]
          have hrest := ihe rest { c with written := true, trace := c.trace ++ [Event.wrote] }
          cases hre : execF fuel rest { c with written := true, trace := c.trace ++ [Event.wrote] } with
          | error e =>
            rw [hre] at hrest
            rcases e with ⟨f, tr⟩
            exact hrest
          | ok c' =>
            rw [hre] at hrest
            exact execPost_pre Event.wrote c
              { c with written := true, trace := c.trace ++ [Event.wrote] } c'
              rfl rfl rfl rfl rfl hrest
        | work tag =>
          rw [execF_work]
          have hrest := ihe rest { c with trace := c.trace ++ [Event.didWork tag] }
          cases hre : execF fuel rest { c with trace := c.trace ++ [Event.didWork tag] } with
          | error e =>
            rw [hre] at hrest
            rcases e with ⟨f, tr⟩
            exact hrest
          | ok c' =>
            rw [hre] at hrest
            exact execPost_pre (Event.didWork tag) c
              { c with trace := c.trace ++ [Event.didWork tag] } c'
              rfl rfl rfl rfl rfl hrest
        | fail e =>
          rw [execF_fail]
          show Fault.panik e ≠ Fault.invalidIndex
          simp
        | callNext =>
          have hn := ihr { c with index := c.index + 1 }
          cases hrun : runF fuel { c with index := c.index + 1 } with
          | error e =>
            rw [execF_next_err fuel rest c e hrun]
            rw [hrun] at hn
            rcases e with ⟨f, tr⟩
            exact hn
          | ok c1 =>
            rw [execF_next_ok fuel rest c c1 hrun]
            rw [hrun] at hn
            have hn' : RunPost { c with index := c.index + 1 } c1 := hn
            have hrest := ihe rest c1
            cases hre : execF fuel rest c1 with
            | error e =>
              rw [hre] at hrest
              rcases e with ⟨f, tr⟩
              exact hrest
            | ok c' =>
              rw [hre] at hrest
              exact execPost_next c c1 c' hn' hrest

/-- Purity of a chain only depends on its handlers and action. -/
theorem pureCtx_eq (c c' : Ctx) (hh : c'.handlers = c.handlers) (ha : c'.action = c.action) :
    pureCtx c' = pureCtx c := by
  unfold pureCtx
  rw [hh, ha]

/-- In a pure chain, the handler the cursor identifies has a pure body. -/
theorem pureActs_handler (c : Ctx) (h : Handler) (hp : pureCtx c = true)
    (hch : contextHandler c = some h) : pureActs h.body = true := by
  unfold pureCtx at hp
  simp only [Bool.and_eq_true] at hp
  rcases hp with ⟨h1, h2⟩
  rcases contextHandler_mem c h hch with hm | heq
  · exact List.all_eq_true.mp h1 h hm
  · rw [heq]
    exact h2

theorem pureActs_cons (a : HAction) (rest : List HAction) :
    pureActs (a :: rest) = (pureAct a && pureActs rest) := by
  simp [pureActs]

@[simp]
theorem hasNext_nil : hasNext [] = false := rfl

@[simp]
theorem hasNext_cons_work (tag : Nat) (rest : List HAction) :
    hasNext (HAction.work tag :: rest) = hasNext rest := by
  simp [hasNext]

@[simp]
theorem hasNext_cons_next (rest : List HAction) :
    hasNext (HAction.callNext :: rest) = true := by
  simp [hasNext]

/-- A run entered with the cursor already beyond the chain is a no-op and
trivially satisfies the pure postcondition. -/
theorem pure_run_high (c : Ctx) (hhi : c.handlers.length < c.index) (hw : c.written = false) :
    ∃ fuel c', runF fuel c = .ok c' ∧ PureRunPost c c' := by
  refine ⟨1, c, runF_high 0 c hhi, ?_⟩
  unfold PureRunPost
  refine ⟨rfl, rfl, hw, le_refl _, hhi, [], by simp, ?_, ?_⟩
  · rw [show c.handlers.length + 1 - c.index = 0 from by omega]
    rfl
  · intro j h1 h2
    omega

/-- One pure loop iteration composes: invoke the handler at the cursor, run
its body, then continue the loop from the bumped cursor. -/
theorem pureRunPost_compose (acts : List HAction) (c c1 c' : Ctx)
    (hidx : c.index ≤ c.handlers.length)
    (hb : PureExecPost acts (pushInvoke c) c1)
    (hl : PureRunPost (bump c1 c.index) c') :
    PureRunPost c c' := by
  unfold PureExecPost at hb
  unfold PureRunPost at hl ⊢
  obtain ⟨hh, ha, hwr, hi, hnxt, hnonxt, Δb, ht, hinv, hret⟩ := hb
  obtain ⟨hh', ha', hwr', hi', hhi', Δl, ht', hinv', hret'⟩ := hl
  simp only [pushInvoke_handlers, pushInvoke_action, pushInvoke_index, pushInvoke_trace,
    bump_handlers, bump_action, bump_index, bump_trace] at *
  have hlenb : c1.handlers.length = c.handlers.length := by rw [hh]
  refine ⟨hh'.trans hh, ha'.trans ha, hwr', by omega, by omega,
    Event.invoke c.index :: (Δb ++ (Event.ret c.index :: Δl)), ?_, ?_, ?_⟩
  · rw [ht', ht]
    simp
  · simp only [invokes_invoke, invokes_append, invokes_ret]
    have hgoal : c.handlers.length + 1 - c.index = (c.handlers.length - c.index) + 1 := by
      omega
    rw [hgoal]
    cases hnx : hasNext acts with
    | true =>
      rw [hnx] at hinv
      simp only [if_true] at hinv
      have hc1 : c.handlers.length < c1.index := hnxt hnx
      have hl0 : invokes Δl = [] := by
        rw [hinv', show c1.handlers.length + 1 - (c1.index + 1) = 0 from by omega]
        rfl
      rw [hinv, hl0, List.append_nil]
      rfl
    | false =>
      rw [hnx] at hinv
      simp only [Bool.false_eq_true, if_false] at hinv
      have hc1 : c1.index = c.index := hnonxt hnx
      have hl1 : invokes Δl = List.range' (c.index + 1) (c.handlers.length - c.index) := by
        rw [hinv', hc1, hlenb, show c.handlers.length + 1 - (c.index + 1) =
          c.handlers.length - c.index from by omega]
      rw [hinv, hl1, List.nil_append]
      rfl
  · intro j hj1 hj2
    rcases Nat.eq_or_lt_of_le hj1 with rfl | hlt
    · exact List.mem_cons_of_mem _ (List.mem_append_right _ (List.mem_cons_self _ _))
    · cases hnx : hasNext acts with
      | true =>
        exact List.mem_cons_of_mem _ (List.mem_append_left _ (hret j hlt hj2 hnx))
      | false =>
        have hc1 : c1.index = c.index := hnonxt hnx
        have hjl : Event.ret j ∈ Δl := hret' j (by omega) (by omega)
        exact List.mem_cons_of_mem _
          (List.mem_append_right _ (List.mem_cons_of_mem _ hjl))

/-- Prepending a pure non-`Next` effect preserves the pure body
postcondition. -/
theorem pureExecPost_pre (ev : Event) (hev : invokes [ev] = []) (a : HAction)
    (rest : List HAction) (c c0 c' : Ctx)
    (hh : c0.handlers = c.handlers) (ha : c0.action = c.action) (hi : c0.index = c.index)
    (ht : c0.trace = c.trace ++ [ev])
    (hnx : hasNext (a :: rest) = hasNext rest)
    (hp : PureExecPost rest c0 c') : PureExecPost (a :: rest) c c' := by
  unfold PureExecPost at hp ⊢
  obtain ⟨hh', ha', hwr', hi', hnxt', hnonxt', Δ, ht', hinv', hret'⟩ := hp
  rw [hh] at hnxt'
  rw [hi] at hnonxt'
  rw [hh, hi] at hinv'
  rw [hh, hi] at hret'
  refine ⟨hh'.trans hh, ha'.trans ha, hwr', by omega, ?_, ?_, ev :: Δ, ?_, ?_, ?_⟩
  · intro hx
    rw [hnx] at hx
    exact hnxt' hx
  · intro hx
    rw [hnx] at hx
    exact hnonxt' hx
  · rw [ht', ht]
    simp
  · rw [invokes_cons_none ev Δ hev, hnx]
    exact hinv'
  · intro j hj1 hj2 hx
    rw [hnx] at hx
    exact List.mem_cons_of_mem _ (hret' j hj1 hj2 hx)

/-- A `c.Next()` at the head of a pure body: the nested loop finishes the
whole remaining chain; the rest of the body then causes no further
invocations. -/
theorem pureExecPost_next (rest : List HAction) (c c1 c' : Ctx)
    (hn : PureRunPost { c with index := c.index + 1 } c1)
    (hr : PureExecPost rest c1 c') :
    PureExecPost (HAction.callNext :: rest) c c' := by
  unfold PureRunPost at hn
  unfold PureExecPost at hr ⊢
  obtain ⟨hh, ha, hwr, hi, hhi, Δn, ht, hinv, hret⟩ := hn
  obtain ⟨hh', ha', hwr', hi', hnxt', hnonxt', Δr, ht', hinv', hret'⟩ := hr
  simp only at hh ha hi hhi ht hinv hret
  have hlen : c1.handlers.length = c.handlers.length := by rw [hh]
  refine ⟨hh'.trans hh, ha'.trans ha, hwr', by omega, fun _ => by omega, ?_,
    Δn ++ Δr, ?_, ?_, ?_⟩
  · intro hx
    rw [hasNext_cons_next] at hx
    simp at hx
  · rw [ht', ht]
    simp
  · rw [invokes_append, hasNext_cons_next, if_pos rfl]
    have hr0 : invokes Δr = [] := by
      rw [hinv']
      split
      · rw [show c1.handlers.length - c1.index = 0 from by omega]
        rfl
      · rfl
    rw [hinv, hr0, List.append_nil,
      show c.handlers.length + 1 - (c.index + 1) = c.handlers.length - c.index from by omega]
  · intro j hj1 hj2 _
    exact List.mem_append_left _ (hret j (by omega) (by omega))

/-- Totality and exact behaviour of the dispatch loop over pure chains, by
strong induction on the remaining distance to the end of the chain. -/
theorem pure_total :
    ∀ k : Nat,
      (∀ (acts : List HAction) (c : Ctx),
          pureCtx c = true → pureActs acts = true → c.written = false →
          c.handlers.length + 2 - c.index ≤ k →
          ∃ fuel c', execF fuel acts c = .ok c' ∧ PureExecPost acts c c') ∧
      (∀ c : Ctx,
          pureCtx c = true → c.written = false →
          c.handlers.length + 2 - c.index ≤ k →
          ∃ fuel c', runF fuel c = .ok c' ∧ PureRunPost c c') := by
  intro k
  induction k using Nat.strong_induction_on with
  | _ k ih =>
    have execPart : ∀ (acts : List HAction) (c : Ctx),
        pureCtx c = true → pureActs acts = true → c.written = false →
        c.handlers.length + 2 - c.index ≤ k →
        ∃ fuel c', execF fuel acts c = .ok c' ∧ PureExecPost acts c c' := by
      intro acts
      induction acts with
      | nil =>
        intro c hpc hpa hw hm
        refine ⟨0, c, execF_nil 0 c, ?_⟩
        unfold PureExecPost
        refine ⟨rfl, rfl, hw, le_refl _, ?_, fun _ => rfl, [], by simp, ?_, ?_⟩
        · intro hx
          simp at hx
        · simp
        · intro j h1 h2 hx
          simp at hx
      | cons a rest ihrest =>
        intro c hpc hpa hw hm
        rw [pureActs_cons] at hpa
        simp only [Bool.and_eq_true] at hpa
        rcases hpa with ⟨hpa1, hpa2⟩
        cases a with
        | write => simp [pureAct] at hpa1
        | fail e => simp [pureAct] at hpa1
        | work tag =>
          obtain ⟨fuel, c', hex, hpost⟩ :=
            ihrest { c with trace := c.trace ++ [Event.didWork tag] } hpc hpa2 hw hm
          refine ⟨fuel + 1, c', ?_, ?_⟩
          · rw [execF_work]
            exact hex
          · exact pureExecPost_pre (Event.didWork tag) rfl (HAction.work tag) rest c
              { c with trace := c.trace ++ [Event.didWork tag] } c'
              rfl rfl rfl rfl (hasNext_cons_work tag rest) hpost
        | callNext =>
          have hnested : ∃ fueln c1,
              runF fueln { c with index := c.index + 1 } = .ok c1 ∧
                PureRunPost { c with index := c.index + 1 } c1 := by
            by_cases hhi : c.handlers.length < c.index + 1
            · exact pure_run_high { c with index := c.index + 1 } hhi hw
            · have hlt : c.handlers.length + 2 - (c.index + 1) < k := by omega
              exact (ih _ hlt).2 { c with index := c.index + 1 } hpc hw (le_refl _)
          obtain ⟨fueln, c1, hrun, hpn⟩ := hnested
          obtain ⟨hh, ha, hwr1, hi1, hhi1, Δn, htn, hinvn, hretn⟩ := hpn
          have hpc1 : pureCtx c1 = true := by
            rw [pureCtx_eq c c1 hh ha]
            exact hpc
          have hm1 : c1.handlers.length + 2 - c1.index ≤ k := by
            have h1 : c1.handlers.length = c.handlers.length := by
              have := congrArg List.length hh
              simpa using this
            have h2 : c.handlers.length < c1.index := by simpa using hhi1
            have h3 : c.index + 1 ≤ c1.index := by simpa using hi1
            omega
          obtain ⟨fuelr, c', hexr, hpr⟩ := ihrest c1 hpc1 hpa2 hwr1 hm1
          refine ⟨max fueln fuelr + 1, c', ?_, ?_⟩
          · have hrun' : runF (max fueln fuelr) { c with index := c.index + 1 } = .ok c1 :=
              (fuel_mono fueln).1 _ _ _ (le_max_left _ _) hrun rfl
            have hexr' : execF (max fueln fuelr) rest c1 = .ok c' :=
              (fuel_mono fuelr).2 _ _ _ _ (le_max_right _ _) hexr rfl
            rw [execF_next_ok _ rest c c1 hrun']
            exact hexr'
          · exact pureExecPost_next rest c c1 c'
              ⟨hh, ha, hwr1, hi1, hhi1, Δn, htn, hinvn, hretn⟩ hpr
    have runPart : ∀ c : Ctx, pureCtx c = true → c.written = false →
        c.handlers.length + 2 - c.index ≤ k →
        ∃ fuel c', runF fuel c = .ok c' ∧ PureRunPost c c' := by
      intro c hpc hw hm
      by_cases hidx : c.index ≤ c.handlers.length
      · obtain ⟨h, hch⟩ := contextHandler_isSome c hidx
        have hpb := pureActs_handler c h hpc hch
        obtain ⟨fuelb, c1, hexb, hpostb⟩ := execPart h.body (pushInvoke c) hpc hpb hw hm
        obtain ⟨hh, ha, hwr1, hi1, hnxt1, hnonxt1, Δb, htb, hinvb, hretb⟩ := hpostb
        have hbw : (bump c1 c.index).written = false := by
          rw [bump_written]
          exact hwr1
        have hlen1 : c1.handlers.length = c.handlers.length := by
          rw [hh, pushInvoke_handlers]
        have hcont : ∃ fuelc c',
            runF fuelc (bump c1 c.index) = .ok c' ∧ PureRunPost (bump c1 c.index) c' := by
          cases hnx : hasNext h.body with
          | true =>
            have hc1 : (pushInvoke c).handlers.length < c1.index := hnxt1 hnx
            refine pure_run_high (bump c1 c.index) ?_ hbw
            rw [bump_handlers, bump_index]
            rw [pushInvoke_handlers] at hc1
            omega
          | false =>
            have hc1 : c1.index = (pushInvoke c).index := hnonxt1 hnx
            rw [pushInvoke_index] at hc1
            have hpcb : pureCtx (bump c1 c.index) = true := by
              rw [pureCtx_eq c (bump c1 c.index) (by rw [bump_handlers, hh, pushInvoke_handlers])
                (by rw [bump_action, ha, pushInvoke_action])]
              exact hpc
            have hlt : (bump c1 c.index).handlers.length + 2 - (bump c1 c.index).index < k := by
              rw [bump_handlers, bump_index, hlen1, hc1]
              omega
            exact (ih _ hlt).2 (bump c1 c.index) hpcb hbw (le_refl _)
        obtain ⟨fuelc, c', hrc, hpostc⟩ := hcont
        refine ⟨max fuelb fuelc + 1, c', ?_, ?_⟩
        · have hexb' : execF (max fuelb fuelc) h.body (pushInvoke c) = .ok c1 :=
            (fuel_mono fuelb).2 _ _ _ _ (le_max_left _ _) hexb rfl
          have hrc' : runF (max fuelb fuelc) (bump c1 c.index) = .ok c' :=
            (fuel_mono fuelc).1 _ _ _ (le_max_right _ _) hrc rfl
          rw [runF_step_go _ c h c1 hidx hch hexb' hbw]
          exact hrc'
        · exact pureRunPost_compose h.body c c1 c' hidx
            ⟨hh, ha, hwr1, hi1, hnxt1, hnonxt1, Δb, htb, hinvb, hretb⟩ hpostc
      · exact pure_run_high c (by omega) hw
    exact ⟨execPart, runPart⟩

/-- Any pure, unwritten request context runs to completion (with enough
fuel) and satisfies the exact pure postcondition. -/
theorem pure_run (c : Ctx) (hpc : pureCtx c = true) (hw : c.written = false) :
    ∃ fuel c', runF fuel c = .ok c' ∧ PureRunPost c c' :=
  (pure_total (c.handlers.length + 2 - c.index)).2 c hpc hw (le_refl _)

/-- Whatever the response value, the final operation of the default
return-value interpreter is a body write, never a status write. -/
theorem renderBody_is_write (v : RVal) : ∃ b, renderBody v = WOp.write b := by
  simp only [renderBody]
  split <;> split <;> exact ⟨_, rfl⟩

/-- C6 (counterexample): the claim says applying the default return-value
interpreter to zero return values is a no-op writing no body bytes; on the
code, `responseVal` stays the zero `reflect.Value`, neither guard fires,
and `res.Write([]byte(responseVal.String()))` writes the bytes of
`"<invalid Value>"` — a body write is performed. -/
theorem c6_counterexample :
    WOp.write (BodyChunk.utf8 "<invalid Value>") ∈ defaultReturnHandler [] := by
  decide

/-- C6 (amended): applied to zero return values, the default return-value
interpreter writes no status code, but it does write a body: the textual
rendering `"<invalid Value>"` of the zero `reflect.Value`. -/
theorem c6_zero_values_writes_invalid :
    defaultReturnHandler [] = [WOp.write (BodyChunk.utf8 "<invalid Value>")] ∧
      ∀ n : Int, WOp.writeHeader n ∉ defaultReturnHandler [] := by
  refine ⟨rfl, ?_⟩
  intro n hmem
  have h : defaultReturnHandler [] = [WOp.write (BodyChunk.utf8 "<invalid Value>")] := rfl
  rw [h] at hmem
  simp at hmem

/-- C7: under the default return-value interpreter, a handler returning only
a byte sequence has exactly that sequence written verbatim as the body with
no status call, and a handler returning the pair `(404, "not found")` has
status 404 written first and then the body `"not found"`. -/
theorem c7_bytes_verbatim_and_status_pair :
    (∀ bs : List Nat,
        defaultReturnHandler [RVal.rbytes bs] = [WOp.write (BodyChunk.raw bs)]) ∧
      defaultReturnHandler [RVal.rint 404, RVal.rstr "not found"] =
        [WOp.writeHeader 404, WOp.write (BodyChunk.utf8 "not found")] :=
  ⟨fun _ => rfl, rfl⟩

/-- C10: when the default return-value interpreter gets two or more return
values whose first value is not an integer, it writes only the first value
as the response body (dereferenced once, raw for a byte slice, textual
otherwise), writes no status code, and discards the second and all later
values: the result does not depend on them. -/
theorem c10_multi_non_int_first_only :
    ∀ (v w : RVal) (vs : List RVal), v.kind ≠ RKind.kInt →
      defaultReturnHandler (v :: w :: vs) = [renderBody v] ∧
        ∀ n : Int, renderBody v ≠ WOp.writeHeader n := by
  intro v w vs h
  have hk : (v.kind == RKind.kInt) = false := by
    simp [h]
  constructor
  · simp [defaultReturnHandler, renderBody, hk]
  · intro n
    obtain ⟨b, hb⟩ := renderBody_is_write v
    rw [hb]
    simp

/-- C8 (counterexample): the claim says the context's self-reference is
mapped both as its concrete type and as the abstract `Context` capability;
`createContext` only calls `MapTo(c, (*Context)(nil))`, so with an empty
global container a lookup of the concrete context type fails. -/
theorem c8_counterexample :
    (createContext { injector := Injector.node [] none, handlers := [],
                     action := ⟨[], []⟩ }).1.get TypeKey.contextConcrete = none := rfl

/-- C8 (amended): for every inbound request, `createContext` builds a
per-request context whose child container has the global container as
parent and whose cursor starts at 0, seeded with the inbound request value
(keyed by its concrete type), the decorated response sink (keyed as the
abstract `http.ResponseWriter` capability) and a self-reference keyed as
the abstract `Context` capability only — a lookup of the context's
concrete type falls through to the global container. -/
theorem c8_create_context :
    ∀ m : MartiniApp,
      (createContext m).2.index = 0 ∧
      (createContext m).2.handlers = m.handlers ∧
      (createContext m).2.action = m.action ∧
      (createContext m).2.written = false ∧
      (createContext m).1.parentOf = some m.injector ∧
      (createContext m).1.get TypeKey.contextIface = some SVal.ctxSelf ∧
      (createContext m).1.get TypeKey.responseWriterIface = some SVal.rwSink ∧
      (createContext m).1.get TypeKey.requestType = some SVal.reqVal ∧
      (createContext m).1.get TypeKey.contextConcrete =
        m.injector.get TypeKey.contextConcrete :=
  fun _ => ⟨rfl, rfl, rfl, rfl, rfl, rfl, rfl, rfl, rfl⟩

/-- C10 (witness): at the concrete input `("a", "b")`. -/
theorem c10_witness :
    RVal.kind (RVal.rstr "a") ≠ RKind.kInt ∧
      (defaultReturnHandler [RVal.rstr "a", RVal.rstr "b"] = [renderBody (RVal.rstr "a")] ∧
        ∀ n : Int, renderBody (RVal.rstr "a") ≠ WOp.writeHeader n) :=
  ⟨by decide, c10_multi_non_int_first_only (RVal.rstr "a") (RVal.rstr "b") [] (by decide)⟩

end Martini
